import Mathlib

/-!
Verification development for the invoice-field-extraction core of the
Acoouting-project repository (src/document_processor.py, src/database.py).

The Python code is shallowly embedded: text is `List Char` (ASCII character
classes model Python's `\d`, `\s`, `\w` classes), Python floats are modelled
as rationals (all numeric candidates produced by the amount patterns have at
most two decimal digits and magnitude at most about 10^8, a range on which
decimal strings are in order- and equality-preserving correspondence with
IEEE doubles), `datetime` values carry no time of day in this program and are
modelled as calendar dates, and Python's backtracking regular-expression
engine is embedded as `RE.runs`, which returns every way a pattern can match
a prefix of the input in the engine's backtracking priority order (greedy
quantifiers first, alternatives in declared order).  External collaborators
(OCR, IMAP, MongoDB) are outside the core; the text that OCR would produce is
an input of the model.
-/

namespace Acct

/-! ### ASCII character classes, mirroring Python's `re` classes -/

/-- Python `\d` (ASCII): characters `'0'`–`'9'`. -/
def chDigit (c : Char) : Bool := 48 ≤ c.toNat && c.toNat ≤ 57

/-- Python `\s` (ASCII): space, tab, newline, carriage return, form feed,
vertical tab. -/
def chSpace (c : Char) : Bool := c.toNat = 32 || (9 ≤ c.toNat && c.toNat ≤ 13)

/-- ASCII upper-case letter. -/
def chUpper (c : Char) : Bool := 65 ≤ c.toNat && c.toNat ≤ 90

/-- ASCII lower-case letter. -/
def chLower (c : Char) : Bool := 97 ≤ c.toNat && c.toNat ≤ 122

/-- ASCII letter. -/
def chAlpha (c : Char) : Bool := chUpper c || chLower c

/-- Python `\w` (ASCII): letters, digits, underscore. -/
def chWord (c : Char) : Bool := chAlpha c || chDigit c || c.toNat = 95

/-- ASCII lower-casing, as Python `str.lower` acts on ASCII. -/
def lowerCh (c : Char) : Char :=
  if chUpper c then Char.ofNat (c.toNat + 32) else c

/-- ASCII upper-casing, as Python `str.upper` acts on ASCII. -/
def upperCh (c : Char) : Char :=
  if chLower c then Char.ofNat (c.toNat - 32) else c

/-- Exact-character class (a literal character in a pattern). -/
def chIs (a : Char) (c : Char) : Bool := c = a

/-- Case-insensitive literal character (a literal under `re.IGNORECASE`). -/
def chCI (a : Char) (c : Char) : Bool := lowerCh c = lowerCh a

/-! ### A backtracking regular-expression engine

`RE.runs re s` lists, in backtracking priority order, every pair
`(t, cap)` such that `re` matches the prefix of `s` before the suffix `t`,
with `cap` the text of the (single, outermost) capturing group if one
participated in the match.  Python's `re` reports the first entry of this
list; greedy quantifiers put longer consumptions first and alternations keep
their declared order, exactly as in `RE.runs`.  The patterns of the program
never place a capturing group under a quantifier, so `starLoop` not
reporting captures from inside a repetition is faithful here. -/

inductive RE where
  | eps : RE
  | cls : (Char → Bool) → RE
  | seq : RE → RE → RE
  | alt : RE → RE → RE
  | opt : RE → RE
  | star : RE → RE
  | grp : RE → RE

/-- One backtracking outcome: the unconsumed suffix and the capture, if any. -/
abbrev SfxCap := List Char × Option (List Char)

/-- Greedy iteration of a pattern, fuelled by the input length (an iteration
of a starred pattern that consumes nothing ends the loop, as in Python's
empty-match rule; no pattern of the program can iterate without consuming). -/
def starLoop (f : List Char → List SfxCap) : Nat → List Char → List SfxCap
  | 0, s => [(s, none)]
  | fuel + 1, s =>
    ((f s).filter (fun x => x.1.length < s.length)).flatMap
      (fun x => starLoop f fuel x.1) ++ [(s, none)]

/-- All backtracking outcomes of a pattern on an input, priority order first. -/
def RE.runs : RE → List Char → List SfxCap
  | .eps, s => [(s, none)]
  | .cls _, [] => []
  | .cls p, c :: rest => if p c then [(rest, none)] else []
  | .seq a b, s =>
    (a.runs s).flatMap (fun x => (b.runs x.1).map (fun y => (y.1, y.2 <|> x.2)))
  | .alt a b, s => a.runs s ++ b.runs s
  | .opt a, s => a.runs s ++ [(s, none)]
  | .star a, s => starLoop (fun s' => a.runs s') (s.length + 1) s
  | .grp a, s => (a.runs s).map (fun x => (x.1, some (s.take (s.length - x.1.length))))

/-- Literal string, case-sensitive. -/
def RE.lit (l : List Char) : RE := l.foldr (fun c r => .seq (.cls (chIs c)) r) .eps

/-- Literal string under `re.IGNORECASE`. -/
def RE.litCI (l : List Char) : RE := l.foldr (fun c r => .seq (.cls (chCI c)) r) .eps

/-- Exactly `n` copies of a pattern. -/
def RE.rep (a : RE) : Nat → RE
  | 0 => .eps
  | n + 1 => .seq a (RE.rep a n)

/-- Greedily up to `n` further copies of a pattern. -/
def RE.upTo (a : RE) : Nat → RE
  | 0 => .eps
  | n + 1 => .opt (.seq a (RE.upTo a n))

/-- Counted repetition `a{m,m+k}`, greedy. -/
def RE.repRange (a : RE) (m k : Nat) : RE := .seq (RE.rep a m) (RE.upTo a k)

/-- Repetition `a{m,}`, greedy. -/
def RE.repMin (a : RE) (m : Nat) : RE := .seq (RE.rep a m) (.star a)

/-- Ordered alternation of a non-empty list of branches. -/
def RE.alts : List RE → RE
  | [] => .eps
  | [a] => a
  | a :: b :: rest => .alt a (RE.alts (b :: rest))

/-! ### The `finditer` scan

A matcher, given the character before the current position (for word
boundaries) and the remaining text, reports the first match at this position
as `(consumed length, capture)`.  `finditer` mirrors Python's `re.finditer`:
it scans left to right, emits non-overlapping matches, resumes after each
non-empty match and one character after an empty one. -/

abbrev Matcher := Option Char → List Char → Option (Nat × Option (List Char))

/-- The scan itself, fuelled by the input length (after an empty match, or no
match, the scan moves on by one character; it stops at the end of the
text). -/
def finditerAux (m : Matcher) : Nat → Option Char → List Char → List (List Char × Option (List Char))
  | 0, _, _ => []
  | fuel + 1, prev, s =>
    match m prev s with
    | some (n, cap) =>
      if 0 < n ∧ n ≤ s.length then
        (s.take n, cap) :: finditerAux m fuel ((s.take n).getLast?) (s.drop n)
      else
        ([], cap) :: (if s.isEmpty then [] else finditerAux m fuel s.head? s.tail)
    | none => if s.isEmpty then [] else finditerAux m fuel s.head? s.tail

/-- All `(matched text, capture)` pairs of a matcher over a text. -/
def finditer (m : Matcher) (s : List Char) : List (List Char × Option (List Char)) :=
  finditerAux m (s.length + 1) none s

/-- Plain matcher of a pattern: the engine's first backtracking outcome. -/
def reMatcher (re : RE) : Matcher := fun _ s =>
  (re.runs s).head?.map (fun x => (s.length - x.1.length, x.2))

/-- Is there a word boundary between two adjacent characters (`none` stands
for the edge of the text)?  Python's `\b`. -/
def wordBoundary (a b : Option Char) : Bool :=
  (match a with | none => false | some c => chWord c)
    != (match b with | none => false | some c => chWord c)

/-- Matcher of a pattern wrapped as `\b pattern \b`: the leading boundary is
checked at the current position, and the trailing boundary selects the first
backtracking outcome it lets through, as Python's backtracking does. -/
def bMatcher (re : RE) : Matcher := fun prev s =>
  if wordBoundary prev s.head? then
    ((re.runs s).find? (fun x =>
        wordBoundary ((s.take (s.length - x.1.length)).getLast?) x.1.head?)).map
      (fun x => (s.length - x.1.length, x.2))
  else none

/-! ### The amount extractor (`DocumentProcessor.extract_amounts`)

`self.amount_patterns`, in declared order; the Boolean records whether the
pattern defines a capturing group (`match.groups()` non-empty), in which case
the code reads `match.group(1)`, else the whole match.  All four patterns are
applied with `re.IGNORECASE`. -/

/-- `\d{1,3}(?:,\d{3})*`: an integer part with optional thousands commas. -/
def intCommaRE : RE :=
  .seq (RE.repRange (.cls chDigit) 1 2)
    (.star (.seq (.cls (chIs ',')) (RE.rep (.cls chDigit) 3)))

/-- `(?:\.\d{2})`: a two-digit decimal part. -/
def centsRE : RE := .seq (.cls (chIs '.')) (RE.rep (.cls chDigit) 2)

/-- `\$\s*\d{1,3}(?:,\d{3})*(?:\.\d{2})`. -/
def amountRE1 : RE :=
  .seq (.cls (chIs '$')) (.seq (.star (.cls chSpace)) (.seq intCommaRE centsRE))

/-- `\$\s*\d+\.\d{2}`. -/
def amountRE2 : RE :=
  .seq (.cls (chIs '$')) (.seq (.star (.cls chSpace))
    (.seq (RE.repMin (.cls chDigit) 1) centsRE))

/-- `(?:Total|Amount|Due|Balance)[\s:]*\$?\s*(\d{1,3}(?:,\d{3})*(?:\.\d{2})?)`. -/
def amountRE3 : RE :=
  .seq (RE.alts [RE.litCI ("Total".data), RE.litCI ("Amount".data),
      RE.litCI ("Due".data), RE.litCI ("Balance".data)])
    (.seq (.star (.cls (fun c => chSpace c || chIs ':' c)))
      (.seq (.opt (.cls (chIs '$'))) (.seq (.star (.cls chSpace))
        (.grp (.seq intCommaRE (.opt centsRE))))))

/-- `(?:USD|CAD)?\s*\$?\s*(\d{1,3}(?:,\d{3})*(?:\.\d{2}))`. -/
def amountRE4 : RE :=
  .seq (.opt (RE.alts [RE.litCI ("USD".data), RE.litCI ("CAD".data)]))
    (.seq (.star (.cls chSpace))
      (.seq (.opt (.cls (chIs '$'))) (.seq (.star (.cls chSpace))
        (.grp (.seq intCommaRE centsRE)))))

/-- The ordered amount pattern list with its has-a-group flags. -/
def amountPatterns : List (RE × Bool) :=
  [(amountRE1, false), (amountRE2, false), (amountRE3, true), (amountRE4, true)]

/-- The candidate strings the amount loop iterates over: for each pattern in
order, each `finditer` match contributes `match.group(1)` when the pattern
has a group (the group is never optional, so it always participates), else
`match.group(0)`. -/
def amountCands (pats : List (RE × Bool)) (text : List Char) : List (List Char) :=
  pats.flatMap (fun pg =>
    (finditer (reMatcher pg.1) text).filterMap
      (fun x => if pg.2 then x.2 else some x.1))

/-- `re.sub(r'[^\d.,]', '', s)` followed by `s.replace(',', '')`. -/
def cleanAmount (s : List Char) : List Char :=
  (s.filter (fun c => chDigit c || chIs '.' c || chIs ',' c)).filter
    (fun c => !chIs ',' c)

/-- Value of a digit string. -/
def digitsVal (l : List Char) : Nat := l.foldl (fun n c => n * 10 + (c.toNat - 48)) 0

/-- Python `float(s)` on the post-cleaning strings (digits and dots): a
decimal with at most one dot and at least one digit, `none` on anything
else (`ValueError`). -/
def parseFloat (s : List Char) : Option ℚ :=
  match s.splitOn '.' with
  | [i] => if i ≠ [] ∧ i.all chDigit then some (mkRat (digitsVal i) 1) else none
  | [i, f] =>
    if (i ++ f) ≠ [] ∧ i.all chDigit ∧ f.all chDigit then
      some (mkRat (digitsVal i * 10 ^ f.length + digitsVal f) (10 ^ f.length))
    else none
  | _ => none

/-- The accumulation loop of `extract_amounts`: parse, filter the range
`[0.01, 1000000]` and skip values already seen (`seen_amounts`, whose content
always equals the list built so far). -/
def collectAmounts : List (List Char) → List ℚ → List ℚ
  | [], acc => acc
  | s :: rest, acc =>
    match parseFloat (cleanAmount s) with
    | none => collectAmounts rest acc
    | some a =>
      if mkRat 1 100 ≤ a ∧ a ≤ 1000000 ∧ a ∉ acc then
        collectAmounts rest (acc ++ [a])
      else collectAmounts rest acc

/-- `extract_amounts`, over a given pattern list: collect then
`amounts.sort(reverse=True)`, a descending sort (the collected values are
pairwise distinct, so every correct descending sort — Python's stable one
included — produces this very list). -/
def extractAmountsWith (pats : List (RE × Bool)) (text : List Char) : List ℚ :=
  List.insertionSort (fun a b => a ≥ b) (collectAmounts (amountCands pats text) [])

/-- `DocumentProcessor.extract_amounts`. -/
def extractAmounts (text : List Char) : List ℚ :=
  extractAmountsWith amountPatterns text

/-! ### The date extractor (`DocumentProcessor.extract_dates`)

`datetime` values built by `datetime.strptime(s, fmt)` in this program carry
midnight as time of day, so equality of the stored values is equality of the
calendar date. -/

/-- A resolved calendar date. -/
structure DateValue where
  year : Nat
  month : Nat
  day : Nat
deriving DecidableEq

/-- Day count of a month, with Gregorian leap years, as `datetime` checks. -/
def daysInMonth (y m : Nat) : Nat :=
  if m = 2 then
    if y % 4 = 0 ∧ (y % 100 ≠ 0 ∨ y % 400 = 0) then 29 else 28
  else if m = 4 ∨ m = 6 ∨ m = 9 ∨ m = 11 then 30
  else 31

/-- The validity check of the `datetime` constructor. -/
def DateValue.isValid (d : DateValue) : Bool :=
  1 ≤ d.year && d.year ≤ 9999 && 1 ≤ d.month && d.month ≤ 12
    && 1 ≤ d.day && d.day ≤ daysInMonth d.year d.month

/-- `datetime(year, month, day)`: `some` on a valid date, `none` for the
`ValueError` the constructor raises otherwise. -/
def mkDate (y m d : Nat) : Option DateValue :=
  if (DateValue.mk y m d).isValid then some ⟨y, m, d⟩ else none

/-- `%m` of `_strptime`: `1[0-2]|0[1-9]|[1-9]`, alternatives in this order. -/
def parseMm (s : List Char) : Option (Nat × List Char) :=
  match s with
  | c0 :: c1 :: rest =>
    if c0 = '1' ∧ 48 ≤ c1.toNat ∧ c1.toNat ≤ 50 then some (10 + (c1.toNat - 48), rest)
    else if c0 = '0' ∧ 49 ≤ c1.toNat ∧ c1.toNat ≤ 57 then some (c1.toNat - 48, rest)
    else if 49 ≤ c0.toNat ∧ c0.toNat ≤ 57 then some (c0.toNat - 48, c1 :: rest)
    else none
  | [c0] => if 49 ≤ c0.toNat ∧ c0.toNat ≤ 57 then some (c0.toNat - 48, []) else none
  | [] => none

/-- `%d` of `_strptime`: `3[01]|[12]\d|0[1-9]|[1-9]`, in this order. -/
def parseDd (s : List Char) : Option (Nat × List Char) :=
  match s with
  | c0 :: c1 :: rest =>
    if c0 = '3' ∧ (c1 = '0' ∨ c1 = '1') then some (30 + (c1.toNat - 48), rest)
    else if (c0 = '1' ∨ c0 = '2') ∧ chDigit c1 then
      some ((c0.toNat - 48) * 10 + (c1.toNat - 48), rest)
    else if c0 = '0' ∧ 49 ≤ c1.toNat ∧ c1.toNat ≤ 57 then some (c1.toNat - 48, rest)
    else if 49 ≤ c0.toNat ∧ c0.toNat ≤ 57 then some (c0.toNat - 48, c1 :: rest)
    else none
  | [c0] => if 49 ≤ c0.toNat ∧ c0.toNat ≤ 57 then some (c0.toNat - 48, []) else none
  | [] => none

/-- `%Y` of `_strptime`: exactly four digits. -/
def parseYy (s : List Char) : Option (Nat × List Char) :=
  match s with
  | c0 :: c1 :: c2 :: c3 :: rest =>
    if chDigit c0 ∧ chDigit c1 ∧ chDigit c2 ∧ chDigit c3 then
      some (digitsVal [c0, c1, c2, c3], rest)
    else none
  | _ => none

/-- Does `w` start with `pat`?  Case-insensitive when `ci` is set. -/
def leadsWith (ci : Bool) : List Char → List Char → Bool
  | [], _ => true
  | _ :: _, [] => false
  | p :: ps, c :: cs =>
    (if ci then lowerCh c = lowerCh p else c = p) && leadsWith ci ps cs

/-- Try a list of `(name, value)` literals in order, case-insensitively, as a
`_strptime` alternation of names. -/
def parseNames : List (List Char × Nat) → List Char → Option (Nat × List Char)
  | [], _ => none
  | (w, v) :: rest, s =>
    if leadsWith true w s then some (v, s.drop w.length) else parseNames rest s

/-- `%B`: the full month names; `_strptime` sorts them longest first. -/
def parseBB (s : List Char) : Option (Nat × List Char) :=
  parseNames [("September".data, 9), ("February".data, 2), ("November".data, 11),
    ("December".data, 12), ("January".data, 1), ("October".data, 10),
    ("August".data, 8), ("March".data, 3), ("April".data, 4),
    ("June".data, 6), ("July".data, 7), ("May".data, 5)] s

/-- `%b`: the abbreviated month names. -/
def parseBb (s : List Char) : Option (Nat × List Char) :=
  parseNames [("Jan".data, 1), ("Feb".data, 2), ("Mar".data, 3), ("Apr".data, 4),
    ("May".data, 5), ("Jun".data, 6), ("Jul".data, 7), ("Aug".data, 8),
    ("Sep".data, 9), ("Oct".data, 10), ("Nov".data, 11), ("Dec".data, 12)] s

/-- Whitespace in a `_strptime` format: `\s+`. -/
def parseWs (s : List Char) : Option (List Char) :=
  if s.head?.elim false chSpace then some (s.dropWhile chSpace) else none

/-- A literal character in a `_strptime` format. -/
def parseLit (a : Char) (s : List Char) : Option (List Char) :=
  match s with
  | c :: rest => if c = a then some rest else none
  | [] => none

/-- `strptime` with format `%m SEP %d SEP %Y` (`SEP` is `/` or `-`); the whole
string must be consumed, then the `datetime` constructor validates. -/
def fmtMDY (sep : Char) (s : List Char) : Option DateValue := do
  let (m, s) ← parseMm s
  let s ← parseLit sep s
  let (d, s) ← parseDd s
  let s ← parseLit sep s
  let (y, s) ← parseYy s
  if s = [] then mkDate y m d else none

/-- `strptime` with format `%Y-%m-%d`. -/
def fmtYMD (s : List Char) : Option DateValue := do
  let (y, s) ← parseYy s
  let s ← parseLit '-' s
  let (m, s) ← parseMm s
  let s ← parseLit '-' s
  let (d, s) ← parseDd s
  if s = [] then mkDate y m d else none

/-- `strptime` with format `%B %d, %Y` / `%B %d %Y` / `%b %d, %Y` /
`%b %d %Y`: month-name parser and presence of the comma are parameters. -/
def fmtNamed (pm : List Char → Option (Nat × List Char)) (comma : Bool)
    (s : List Char) : Option DateValue := do
  let (m, s) ← pm s
  let s ← parseWs s
  let (d, s) ← parseDd s
  let s ← if comma then parseLit ',' s else pure s
  let s ← parseWs s
  let (y, s) ← parseYy s
  if s = [] then mkDate y m d else none

/-- The `date_formats` list of `extract_dates`, tried in order, first success
wins (`break`). -/
def tryDateFormats (s : List Char) : Option DateValue :=
  (fmtMDY '/' s).orElse fun _ =>
  (fmtMDY '-' s).orElse fun _ =>
  (fmtYMD s).orElse fun _ =>
  (fmtNamed parseBB true s).orElse fun _ =>
  (fmtNamed parseBB false s).orElse fun _ =>
  (fmtNamed parseBb true s).orElse fun _ =>
  (fmtNamed parseBb false s)

/-- `\d{1,2}SEP\d{1,2}SEP\d{4}` for `SEP` in `/`, `-`. -/
def dateNumRE (sep : Char) : RE :=
  .seq (RE.repRange (.cls chDigit) 1 1) (.seq (.cls (chIs sep))
    (.seq (RE.repRange (.cls chDigit) 1 1) (.seq (.cls (chIs sep))
      (RE.rep (.cls chDigit) 4))))

/-- `\d{4}-\d{1,2}-\d{1,2}`. -/
def dateIsoRE : RE :=
  .seq (RE.rep (.cls chDigit) 4) (.seq (.cls (chIs '-'))
    (.seq (RE.repRange (.cls chDigit) 1 1) (.seq (.cls (chIs '-'))
      (RE.repRange (.cls chDigit) 1 1))))

/-- `NAMES\s+\d{1,2},?\s+\d{4}` for a given month-name alternation, under
`re.IGNORECASE`. -/
def dateNameRE (names : List (List Char)) (tail : RE) : RE :=
  .seq (RE.alts (names.map RE.litCI)) (.seq tail
    (.seq (RE.repMin (.cls chSpace) 1) (.seq (RE.repRange (.cls chDigit) 1 1)
      (.seq (.opt (.cls (chIs ','))) (.seq (RE.repMin (.cls chSpace) 1)
        (RE.rep (.cls chDigit) 4))))))

/-- `self.date_patterns`, in declared order. -/
def datePatterns : List RE :=
  [dateNumRE '/', dateNumRE '-', dateIsoRE,
   dateNameRE (["January".data, "February".data, "March".data, "April".data,
     "May".data, "June".data, "July".data, "August".data, "September".data,
     "October".data, "November".data, "December".data]) .eps,
   dateNameRE (["Jan".data, "Feb".data, "Mar".data, "Apr".data, "May".data,
     "Jun".data, "Jul".data, "Aug".data, "Sep".data, "Oct".data, "Nov".data,
     "Dec".data]) (.star (.cls chAlpha))]

/-- The candidate strings of `extract_dates`: `match.group(0)` of every match
of every pattern, in order. -/
def dateCands (pats : List RE) (text : List Char) : List (List Char) :=
  pats.flatMap (fun re => (finditer (reMatcher re) text).map (fun x => x.1))

/-- The accumulation loop of `extract_dates`: first format that parses wins,
total parse failure skips the candidate, `seen_dates` drops duplicates. -/
def collectDates : List (List Char) → List DateValue → List DateValue
  | [], acc => acc
  | s :: rest, acc =>
    match tryDateFormats s with
    | none => collectDates rest acc
    | some d => if d ∉ acc then collectDates rest (acc ++ [d]) else collectDates rest acc

/-- `extract_dates`, over a given pattern list. -/
def extractDatesWith (pats : List RE) (text : List Char) : List DateValue :=
  collectDates (dateCands pats text) []

/-- `DocumentProcessor.extract_dates`. -/
def extractDates (text : List Char) : List DateValue :=
  extractDatesWith datePatterns text

/-! ### The invoice-number extractor (`DocumentProcessor.extract_invoice_numbers`)

The five contextual patterns carry the inline flag `(?i)`, which in Python
applies to the whole pattern, so their character classes `[A-Z]` and
`[A-Z0-9-]` also match lower-case letters; the two standalone patterns have
no flag and are case-sensitive. -/

/-- `[A-Z]{2,4}-\d{4}-\d{4,6}`; `ci` tells whether `(?i)` is in force. -/
def invCodeRE (ci : Bool) : RE :=
  .seq (RE.repRange (.cls (if ci then chAlpha else chUpper)) 2 2)
    (.seq (.cls (chIs '-')) (.seq (RE.rep (.cls chDigit) 4)
      (.seq (.cls (chIs '-')) (RE.repRange (.cls chDigit) 4 2))))

/-- `[A-Z0-9-]{6,}` under `(?i)`. -/
def invTokenRE : RE :=
  RE.repMin (.cls (fun c => chAlpha c || chDigit c || chIs '-' c)) 6

/-- `\s*#?\s*:?\s*`, the separator run after a label keyword. -/
def invSepRE : RE :=
  .seq (.star (.cls chSpace)) (.seq (.opt (.cls (chIs '#')))
    (.seq (.star (.cls chSpace)) (.seq (.opt (.cls (chIs ':')))
      (.star (.cls chSpace)))))

/-- `self.invoice_patterns`, in declared order, all under `(?i)`:
`invoice…([A-Z]{2,4}-\d{4}-\d{4,6})`, `inv…(…)`,
`invoice(?:number|no|#)…([A-Z0-9-]{6,})`, `bill…(…)`, `reference…(…)`. -/
def invoicePatterns : List RE :=
  [.seq (RE.litCI ("invoice".data)) (.seq invSepRE (.grp (invCodeRE true))),
   .seq (RE.litCI ("inv".data)) (.seq invSepRE (.grp (invCodeRE true))),
   .seq (RE.litCI ("invoice".data)) (.seq (.star (.cls chSpace))
     (.seq (RE.alts [RE.litCI ("number".data), RE.litCI ("no".data),
         RE.litCI ("#".data)])
       (.seq (.star (.cls chSpace)) (.seq (.opt (.cls (chIs ':')))
         (.seq (.star (.cls chSpace)) (.grp invTokenRE)))))),
   .seq (RE.litCI ("bill".data)) (.seq invSepRE (.grp invTokenRE)),
   .seq (RE.litCI ("reference".data)) (.seq invSepRE (.grp invTokenRE))]

/-- The two standalone patterns (case-sensitive, wrapped in `\b…\b`):
`([A-Z]{2,4}-\d{4}-\d{4,6})` and `([A-Z]{3,}\d{6,})`. -/
def standalonePatterns : List RE :=
  [.grp (invCodeRE false),
   .grp (.seq (RE.repMin (.cls chUpper) 3) (RE.repMin (.cls chDigit) 6))]

/-- Python `str.strip()`. -/
def trimL (s : List Char) : List Char :=
  ((s.dropWhile chSpace).reverse.dropWhile chSpace).reverse

/-- The contextual-phase candidates: `match.group(1)` of every match of every
contextual pattern in order (the group is never optional, so it always
participates). -/
def ctxCands (pats : List RE) (text : List Char) : List (List Char) :=
  pats.flatMap (fun re => (finditer (reMatcher re) text).filterMap (fun x => x.2))

/-- The standalone-phase candidates, scanned with the word-boundary
matcher. -/
def standaloneCands (pats : List RE) (text : List Char) : List (List Char) :=
  pats.flatMap (fun re => (finditer (bMatcher re) text).filterMap (fun x => x.2))

/-- Contextual accumulation: strip, keep a non-empty token not yet in
`seen_numbers` (whose content always equals the list built so far). -/
def addCtx : List (List Char) → List (List Char) → List (List Char)
  | [], acc => acc
  | c :: rest, acc =>
    let tok := trimL c
    if tok ≠ [] ∧ tok ∉ acc then addCtx rest (acc ++ [tok]) else addCtx rest acc

/-- Standalone accumulation: additionally requires token length at least 6. -/
def addStandalone : List (List Char) → List (List Char) → List (List Char)
  | [], acc => acc
  | c :: rest, acc =>
    let tok := trimL c
    if tok ≠ [] ∧ tok ∉ acc ∧ 6 ≤ tok.length then addStandalone rest (acc ++ [tok])
    else addStandalone rest acc

/-- The contextual phase of `extract_invoice_numbers`. -/
def ctxPhase (text : List Char) : List (List Char) :=
  addCtx (ctxCands invoicePatterns text) []

/-- `DocumentProcessor.extract_invoice_numbers`: contextual phase, then the
standalone fallback appended to it. -/
def extractInvoiceNumbers (text : List Char) : List (List Char) :=
  addStandalone (standaloneCands standalonePatterns text) (ctxPhase text)

/-! ### The vendor resolver (`DocumentProcessor.extract_vendor_name`) -/

/-- Python `str.split(sep)` for a non-empty separator, fuelled by the input
length. -/
def splitOnAux (sep : List Char) : Nat → List Char → List Char → List (List Char)
  | 0, cur, _ => [cur]
  | fuel + 1, cur, s =>
    if sep ≠ [] ∧ leadsWith false sep s then
      cur :: splitOnAux sep fuel [] (s.drop sep.length)
    else
      match s with
      | [] => [cur]
      | c :: rest => splitOnAux sep fuel (cur ++ [c]) rest

/-- Python `s.split(sep)`. -/
def splitOnL (sep s : List Char) : List (List Char) :=
  splitOnAux sep (s.length + 1) [] s

/-- Python `sub in s`. -/
def hasSub (sub : List Char) : List Char → Bool
  | [] => leadsWith false sub []
  | c :: rest => leadsWith false sub (c :: rest) || hasSub sub rest

/-- `re.sub(r'[^\w\s&.,]', '', s)`: keep word characters, whitespace and
`&`, `.`, `,`. -/
def cleanPunct (s : List Char) : List Char :=
  s.filter (fun c => chWord c || chSpace c || chIs '&' c || chIs '.' c || chIs ',' c)

/-- Helper of `re.sub(r'<.*?>', '', s)`: after an opening `<`, the suffix
after the first closing `>`, provided no newline intervenes (`.` does not
match a newline). -/
def angleEnd : List Char → Option (List Char)
  | [] => none
  | c :: rest =>
    if c = '>' then some rest
    else if c = '\n' then none
    else angleEnd rest

/-- `re.sub(r'<.*?>', '', s)`: drop every non-overlapping angle-bracketed
fragment, scanning left to right. -/
def removeAngles : Nat → List Char → List Char
  | 0, s => s
  | fuel + 1, s =>
    match s with
    | [] => []
    | c :: rest =>
      if c = '<' then
        match angleEnd rest with
        | some rest' => removeAngles fuel rest'
        | none => c :: removeAngles fuel rest
      else c :: removeAngles fuel rest

/-- The generic header tokens skipped by the body tier. -/
def headerTokens : List (List Char) :=
  ["INVOICE".data, "BILL".data, "STATEMENT".data]

/-- The company-suffix indicators of the body tier. -/
def companyIndicators : List (List Char) :=
  ["LLC".data, "Inc".data, "Corp".data, "Ltd".data, "Company".data,
   "Partners".data, "Group".data, "Solutions".data]

/-- The body tier: walk `text.split('\n')[:5]`; strip each line; skip empty
lines and bare header tokens; on the first line containing a company
indicator whose cleaned form is longer than 3, return it; a line whose
cleaned form is not longer than 3 just falls to the next line. -/
def bodyTier : List (List Char) → Option (List Char)
  | [] => none
  | l :: rest =>
    let line := trimL l
    if line = [] ∨ (line.map upperCh) ∈ headerTokens then bodyTier rest
    else if companyIndicators.any (fun ind => hasSub ind line) then
      let vendor := trimL (cleanPunct line)
      if 3 < vendor.length then some vendor else bodyTier rest
    else bodyTier rest

/-- The subject tier: if `'from'` occurs in the lower-cased subject, split
the lower-cased subject on `'from'`, take the piece after the first
occurrence, strip, drop angle-bracketed fragments, strip again, and accept
when longer than 3. -/
def subjectTier (subject : List Char) : Option (List Char) :=
  let low := subject.map lowerCh
  if hasSub ("from".data) low then
    match splitOnL ("from".data) low with
    | _ :: p1 :: _ =>
      let v := trimL p1
      let v := trimL (removeAngles (v.length + 1) v)
      if 3 < v.length then some v else none
    | _ => none
  else none

/-- The sender tier: the part before `<`, else before `@`, else the sender
itself; cleaned of punctuation, stripped, accepted when non-empty and longer
than 3. -/
def senderTier (sender : List Char) : Option (List Char) :=
  let v :=
    if hasSub (['<']) sender then trimL ((splitOnL (['<']) sender).headD [])
    else if hasSub (['@']) sender then (splitOnL (['@']) sender).headD []
    else sender
  let v := trimL (cleanPunct v)
  if v ≠ [] ∧ 3 < v.length then some v else none

/-- `DocumentProcessor.extract_vendor_name`: body tier over the first five
lines, then subject tier, then sender tier. -/
def extractVendorName (text subject sender : List Char) : Option (List Char) :=
  match bodyTier ((splitOnL (['\n']) text).take 5) with
  | some v => some v
  | none =>
    match subjectTier subject with
    | some v => some v
    | none => senderTier sender

/-! ### The orchestrator (`DocumentProcessor.process_document`) and the
confidence scorer (`Database._calculate_confidence_score`)

`process_document` receives attachment bytes and delegates text recovery to
the external OCR collaborator (`process_image` / `extract_text_from_pdf`,
both of which return a string, empty on failure); the text that collaborator
would produce is the `ocrText` input of the model.  The Python function
returns the empty dict `{}` when the content type is unsupported, when no
text was recovered, or when an exception was caught; `none` models that
empty dict, `some` a populated result dict. -/

/-- The result dict assembled by `process_document`. -/
structure ExtractionResult where
  text : List Char
  amounts : List ℚ
  dates : List DateValue
  invoiceNumbers : List (List Char)
  vendorName : Option (List Char)
  contentType : List Char
deriving DecidableEq

/-- `DocumentProcessor.process_document`. -/
def processDocument (ocrText contentType subject sender : List Char) :
    Option ExtractionResult :=
  if leadsWith false ("image/".data) contentType ∨ contentType = ("application/pdf".data) then
    if ocrText = [] then none
    else
      some { text := ocrText
             amounts := extractAmounts ocrText
             dates := extractDates ocrText
             invoiceNumbers := extractInvoiceNumbers ocrText
             vendorName := extractVendorName ocrText subject sender
             contentType := contentType }
  else none

/-- Python truthiness of `extracted_data.get('vendor_name')`. -/
def vendorTruthy : Option (List Char) → Bool
  | none => false
  | some v => v ≠ []

/-- `Database._calculate_confidence_score`: one point for each truthy field
among vendor name, amounts, dates, invoice numbers, divided by 4. -/
def calcConfidence (r : ExtractionResult) : ℚ :=
  (((if vendorTruthy r.vendorName then (1 : ℚ) else 0)
    + (if r.amounts ≠ [] then (1 : ℚ) else 0)
    + (if r.dates ≠ [] then (1 : ℚ) else 0)
    + (if r.invoiceNumbers ≠ [] then (1 : ℚ) else 0)) / 4)

/-! ### The processor as a stateful object

`DocumentProcessor.__init__` stores the pattern lists on the instance; no
method ever mutates them, which the state-passing embedding makes explicit:
each call returns the instance state it was given. -/

/-- The mutable state of a `DocumentProcessor` instance: its pattern
attributes. -/
structure ProcState where
  amountPs : List (RE × Bool)
  datePs : List RE
  invoicePs : List RE
  standalonePs : List RE

/-- `DocumentProcessor()`: the state `__init__` builds. -/
def initState : ProcState :=
  { amountPs := amountPatterns
    datePs := datePatterns
    invoicePs := invoicePatterns
    standalonePs := standalonePatterns }

/-- One document's input: the text OCR would recover, the content type and
the email metadata. -/
structure DocInput where
  ocrText : List Char
  contentType : List Char
  subject : List Char
  sender : List Char

/-- `process_document` using the patterns held in a given instance state. -/
def processDocumentWith (st : ProcState) (i : DocInput) : Option ExtractionResult :=
  if leadsWith false ("image/".data) i.contentType ∨ i.contentType = ("application/pdf".data) then
    if i.ocrText = [] then none
    else
      some { text := i.ocrText
             amounts := extractAmountsWith st.amountPs i.ocrText
             dates := extractDatesWith st.datePs i.ocrText
             invoiceNumbers :=
               addStandalone (standaloneCands st.standalonePs i.ocrText)
                 (addCtx (ctxCands st.invoicePs i.ocrText) [])
             vendorName := extractVendorName i.ocrText i.subject i.sender
             contentType := i.contentType }
  else none

/-- A call of `process_document` on an instance: the result together with the
instance state as the call leaves it. -/
def processDocumentSt (st : ProcState) (i : DocInput) :
    ProcState × Option ExtractionResult :=
  (st, processDocumentWith st i)

/-- The instance state after a sequence of calls. -/
def runHistory (st : ProcState) (hist : List DocInput) : ProcState :=
  hist.foldl (fun s i => (processDocumentSt s i).1) st

/-! ### Structural facts about the engine -/

/-- Least number of characters a pattern can consume. -/
def RE.minLen : RE → Nat
  | .eps => 0
  | .cls _ => 1
  | .seq a b => a.minLen + b.minLen
  | .alt a b => min a.minLen b.minLen
  | .opt _ => 0
  | .star _ => 0
  | .grp a => a.minLen

/-- Every character class of the pattern entails the predicate `p`. -/
def RE.charsSat : RE → (Char → Bool) → Prop
  | .eps, _ => True
  | .cls q, p => ∀ c, q c = true → p c = true
  | .seq a b, p => a.charsSat p ∧ b.charsSat p
  | .alt a b, p => a.charsSat p ∧ b.charsSat p
  | .opt a, p => a.charsSat p
  | .star a, p => a.charsSat p
  | .grp a, p => a.charsSat p

/-- Every capturing group of the pattern has a body that must consume at
least `k` characters, all of them satisfying `p`. -/
def RE.capOK : RE → Nat → (Char → Bool) → Prop
  | .eps, _, _ => True
  | .cls _, _, _ => True
  | .seq a b, k, p => a.capOK k p ∧ b.capOK k p
  | .alt a b, k, p => a.capOK k p ∧ b.capOK k p
  | .opt a, k, p => a.capOK k p
  | .star _, _, _ => True
  | .grp a, k, p => k ≤ a.minLen ∧ a.charsSat p

/-- The pattern contains no capturing group. -/
def RE.noGrp : RE → Bool
  | .eps => true
  | .cls _ => true
  | .seq a b => a.noGrp && b.noGrp
  | .alt a b => a.noGrp && b.noGrp
  | .opt a => a.noGrp
  | .star a => a.noGrp
  | .grp _ => false

theorem capOK_of_noGrp {k : Nat} {p : Char → Bool} :
    ∀ re : RE, re.noGrp = true → re.capOK k p := by
  intro re
  induction re with
  | eps => intro _; trivial
  | cls q => intro _; trivial
  | seq a b iha ihb =>
    intro h
    simp only [RE.noGrp, Bool.and_eq_true] at h
    exact ⟨iha h.1, ihb h.2⟩
  | alt a b iha ihb =>
    intro h
    simp only [RE.noGrp, Bool.and_eq_true] at h
    exact ⟨iha h.1, ihb h.2⟩
  | opt a iha => intro h; exact iha h
  | star a _ => intro _; trivial
  | grp a _ => intro h; simp [RE.noGrp] at h

theorem noGrp_lit (l : List Char) : (RE.lit l).noGrp = true := by
  induction l with
  | nil => rfl
  | cons c t ih => simp [RE.lit, RE.noGrp] at ih ⊢; exact ih

theorem noGrp_litCI (l : List Char) : (RE.litCI l).noGrp = true := by
  induction l with
  | nil => rfl
  | cons c t ih => simp [RE.litCI, RE.noGrp] at ih ⊢; exact ih

/-- Decomposition: every backtracking outcome of `starLoop` splits the input
into a consumed prefix made of `p`-characters and the reported suffix,
provided the iterated pattern does so. -/
theorem starLoop_decomp {p : Char → Bool} {f : List Char → List SfxCap}
    (hf : ∀ s x, x ∈ f s → ∃ u, s = u ++ x.1 ∧ ∀ ch ∈ u, p ch = true) :
    ∀ fuel s x, x ∈ starLoop f fuel s →
      ∃ u, s = u ++ x.1 ∧ ∀ ch ∈ u, p ch = true := by
  intro fuel
  induction fuel with
  | zero =>
    intro s x hx
    simp only [starLoop, List.mem_singleton] at hx
    exact ⟨[], by simp [hx], by simp⟩
  | succ n ih =>
    intro s x hx
    simp only [starLoop, List.mem_append, List.mem_flatMap, List.mem_filter,
      List.mem_singleton] at hx
    rcases hx with ⟨y, ⟨hyf, _⟩, hx⟩ | hx
    · obtain ⟨u₁, hs, hu₁⟩ := hf s y hyf
      obtain ⟨u₂, hy, hu₂⟩ := ih y.1 x hx
      refine ⟨u₁ ++ u₂, ?_, ?_⟩
      · rw [hs, hy, List.append_assoc]
      · intro ch hch
        rcases List.mem_append.mp hch with h | h
        · exact hu₁ ch h
        · exact hu₂ ch h
    · exact ⟨[], by simp [hx], by simp⟩

/-- Decomposition for `RE.runs`: the consumed prefix has at least `minLen`
characters, all satisfying `p` when the pattern's classes do. -/
theorem runs_decomp {p : Char → Bool} :
    ∀ re : RE, re.charsSat p → ∀ s x, x ∈ re.runs s →
      ∃ u, s = u ++ x.1 ∧ re.minLen ≤ u.length ∧ ∀ ch ∈ u, p ch = true := by
  intro re
  induction re with
  | eps =>
    intro _ s x hx
    simp only [RE.runs, List.mem_singleton] at hx
    exact ⟨[], by simp [hx], by simp [RE.minLen]⟩
  | cls q =>
    intro hcs s x hx
    match s with
    | [] => simp [RE.runs] at hx
    | c :: rest =>
      simp only [RE.runs] at hx
      by_cases hc : q c = true
      · rw [if_pos hc] at hx
        simp only [List.mem_singleton] at hx
        refine ⟨[c], by simp [hx], by simp [RE.minLen], ?_⟩
        intro ch hch
        rcases List.mem_singleton.mp hch with rfl
        exact hcs ch hc
      · rw [if_neg hc] at hx; simp at hx
  | seq a b iha ihb =>
    intro hcs s x hx
    simp only [RE.runs, List.mem_flatMap, List.mem_map] at hx
    obtain ⟨xa, hxa, y, hy, hxy⟩ := hx
    obtain ⟨u₁, hs, hl₁, hu₁⟩ := iha hcs.1 s xa hxa
    obtain ⟨u₂, hs₂, hl₂, hu₂⟩ := ihb hcs.2 xa.1 y hy
    refine ⟨u₁ ++ u₂, ?_, ?_, ?_⟩
    · rw [hs, hs₂, ← hxy, List.append_assoc]
    · simp only [RE.minLen, List.length_append]; omega
    · intro ch hch
      rcases List.mem_append.mp hch with h | h
      · exact hu₁ ch h
      · exact hu₂ ch h
  | alt a b iha ihb =>
    intro hcs s x hx
    rcases List.mem_append.mp hx with h | h
    · obtain ⟨u, hs, hl, hu⟩ := iha hcs.1 s x h
      exact ⟨u, hs, by simp only [RE.minLen]; omega, hu⟩
    · obtain ⟨u, hs, hl, hu⟩ := ihb hcs.2 s x h
      exact ⟨u, hs, by simp only [RE.minLen]; omega, hu⟩
  | opt a iha =>
    intro hcs s x hx
    rcases List.mem_append.mp hx with h | h
    · obtain ⟨u, hs, _, hu⟩ := iha hcs s x h
      exact ⟨u, hs, by simp [RE.minLen], hu⟩
    · simp only [List.mem_singleton] at h
      exact ⟨[], by simp [h], by simp [RE.minLen]⟩
  | star a iha =>
    intro hcs s x hx
    obtain ⟨u, hs, hu⟩ :=
      starLoop_decomp (fun s' x' hx' => by
        obtain ⟨u, h1, _, h3⟩ := iha hcs s' x' hx'
        exact ⟨u, h1, h3⟩) (s.length + 1) s x hx
    exact ⟨u, hs, by simp [RE.minLen], hu⟩
  | grp a iha =>
    intro hcs s x hx
    simp only [RE.runs, List.mem_map] at hx
    obtain ⟨xa, hxa, hxe⟩ := hx
    obtain ⟨u, hs, hl, hu⟩ := iha hcs s xa hxa
    exact ⟨u, by rw [← hxe]; exact hs, hl, hu⟩

/-- `starLoop` never reports a capture. -/
theorem starLoop_cap_none (f : List Char → List SfxCap) :
    ∀ fuel s x, x ∈ starLoop f fuel s → x.2 = none := by
  intro fuel
  induction fuel with
  | zero =>
    intro s x hx
    simp only [starLoop, List.mem_singleton] at hx
    simp [hx]
  | succ n ih =>
    intro s x hx
    simp only [starLoop, List.mem_append, List.mem_flatMap, List.mem_filter,
      List.mem_singleton] at hx
    rcases hx with ⟨y, _, hx⟩ | hx
    · exact ih y.1 x hx
    · simp [hx]

/-- Every capture reported by `RE.runs` has length at least `k` and all its
characters satisfy `p`, when `capOK k p` holds of the pattern. -/
theorem runs_capture {k : Nat} {p : Char → Bool} :
    ∀ re : RE, re.capOK k p → ∀ s x cap, x ∈ re.runs s → x.2 = some cap →
      k ≤ cap.length ∧ ∀ ch ∈ cap, p ch = true := by
  intro re
  induction re with
  | eps =>
    intro _ s x cap hx hc
    simp only [RE.runs, List.mem_singleton] at hx
    rw [hx] at hc; cases hc
  | cls q =>
    intro _ s x cap hx hc
    match s with
    | [] => simp [RE.runs] at hx
    | c :: rest =>
      simp only [RE.runs] at hx
      by_cases hq : q c = true
      · rw [if_pos hq] at hx
        simp only [List.mem_singleton] at hx
        rw [hx] at hc; cases hc
      · rw [if_neg hq] at hx; simp at hx
  | seq a b iha ihb =>
    intro hok s x cap hx hc
    simp only [RE.runs, List.mem_flatMap, List.mem_map] at hx
    obtain ⟨xa, hxa, y, hy, hxy⟩ := hx
    rw [← hxy] at hc
    simp only at hc
    match hy2 : y.2 with
    | some c2 =>
      rw [hy2] at hc
      simp only [Option.some_orElse] at hc
      exact ihb hok.2 xa.1 y cap hy (by rw [hy2, ← hc])
    | none =>
      rw [hy2] at hc
      simp only [Option.none_orElse] at hc
      exact iha hok.1 s xa cap hxa (by rw [hc])
  | alt a b iha ihb =>
    intro hok s x cap hx hc
    rcases List.mem_append.mp hx with h | h
    · exact iha hok.1 s x cap h hc
    · exact ihb hok.2 s x cap h hc
  | opt a iha =>
    intro hok s x cap hx hc
    rcases List.mem_append.mp hx with h | h
    · exact iha hok s x cap h hc
    · simp only [List.mem_singleton] at h
      rw [h] at hc; cases hc
  | star a _ =>
    intro _ s x cap hx hc
    have := starLoop_cap_none (fun s' => a.runs s') (s.length + 1) s x hx
    rw [this] at hc; cases hc
  | grp a _ =>
    intro hok s x cap hx hc
    simp only [RE.runs, List.mem_map] at hx
    obtain ⟨xa, hxa, hxe⟩ := hx
    rw [← hxe] at hc
    simp only [Option.some_inj] at hc
    obtain ⟨u, hs, hl, hu⟩ := runs_decomp a hok.2 s xa hxa
    have hlen : s.length - xa.1.length = u.length := by
      rw [hs, List.length_append]; omega
    have hcap : cap = u := by
      rw [← hc, hlen, hs, List.take_left]
    rw [hcap]
    exact ⟨le_trans hok.1 hl, hu⟩

/-- Captures reported by the scan all come from the matcher. -/
theorem finditerAux_caps {m : Matcher} {P : List Char → Prop}
    (hm : ∀ prev s n cap, m prev s = some (n, some cap) → P cap) :
    ∀ fuel prev s x, x ∈ finditerAux m fuel prev s → ∀ cap, x.2 = some cap → P cap := by
  intro fuel
  induction fuel with
  | zero => intro prev s x hx; simp [finditerAux] at hx
  | succ n ih =>
    intro prev s x hx cap hcap
    rw [finditerAux.eq_def] at hx
    simp only at hx
    match hms : m prev s with
    | some (k, c) =>
      rw [hms] at hx
      simp only at hx
      by_cases hk : 0 < k ∧ k ≤ s.length
      · rw [if_pos hk] at hx
        rcases List.mem_cons.mp hx with h | h
        · rw [h] at hcap
          exact hm prev s k cap (by rw [hms, ← hcap])
        · exact ih _ _ x h cap hcap
      · rw [if_neg hk] at hx
        rcases List.mem_cons.mp hx with h | h
        · rw [h] at hcap
          exact hm prev s k cap (by rw [hms, ← hcap])
        · by_cases he : s.isEmpty
          · rw [if_pos he] at h; simp at h
          · rw [if_neg he] at h
            exact ih _ _ x h cap hcap
    | none =>
      rw [hms] at hx
      by_cases he : s.isEmpty
      · rw [if_pos he] at hx; simp at hx
      · rw [if_neg he] at hx
        exact ih _ _ x hx cap hcap

/-- Captures reported by the plain matcher come from `RE.runs`. -/
theorem reMatcher_caps {k : Nat} {p : Char → Bool} {re : RE} (hok : re.capOK k p) :
    ∀ prev s n cap, reMatcher re prev s = some (n, some cap) →
      k ≤ cap.length ∧ ∀ ch ∈ cap, p ch = true := by
  intro prev s n cap h
  simp only [reMatcher, Option.map_eq_some'] at h
  obtain ⟨x, hx, hxe⟩ := h
  have hmem : x ∈ re.runs s := List.mem_of_mem_head? (by rw [hx]; rfl)
  have : x.2 = some cap := by
    have := congrArg Prod.snd hxe
    simpa using this
  exact runs_capture re hok s x cap hmem this

/-- Captures reported by the word-boundary matcher come from `RE.runs`. -/
theorem bMatcher_caps {k : Nat} {p : Char → Bool} {re : RE} (hok : re.capOK k p) :
    ∀ prev s n cap, bMatcher re prev s = some (n, some cap) →
      k ≤ cap.length ∧ ∀ ch ∈ cap, p ch = true := by
  intro prev s n cap h
  simp only [bMatcher] at h
  by_cases hb : wordBoundary prev s.head? = true
  · rw [if_pos hb] at h
    simp only [Option.map_eq_some'] at h
    obtain ⟨x, hx, hxe⟩ := h
    have hmem : x ∈ re.runs s := List.mem_of_find?_eq_some hx
    have : x.2 = some cap := by
      have := congrArg Prod.snd hxe
      simpa using this
    exact runs_capture re hok s x cap hmem this
  · rw [if_neg hb] at h; cases h

/-! ### The invoice patterns only capture long whitespace-free tokens -/

/-- Not a whitespace character. -/
def pNS (c : Char) : Bool := !chSpace c

theorem alpha_pNS : ∀ c, chAlpha c = true → pNS c = true := by
  intro c h
  simp only [chAlpha, chUpper, chLower, Bool.or_eq_true, Bool.and_eq_true,
    decide_eq_true_eq] at h
  simp only [pNS, chSpace, Bool.not_eq_eq_eq_not, Bool.not_true, Bool.or_eq_false_iff,
    Bool.and_eq_false_iff, decide_eq_false_iff_not]
  omega

theorem upper_pNS : ∀ c, chUpper c = true → pNS c = true := by
  intro c h
  simp only [chUpper, Bool.and_eq_true, decide_eq_true_eq] at h
  simp only [pNS, chSpace, Bool.not_eq_eq_eq_not, Bool.not_true, Bool.or_eq_false_iff,
    Bool.and_eq_false_iff, decide_eq_false_iff_not]
  omega

theorem digit_pNS : ∀ c, chDigit c = true → pNS c = true := by
  intro c h
  simp only [chDigit, Bool.and_eq_true, decide_eq_true_eq] at h
  simp only [pNS, chSpace, Bool.not_eq_eq_eq_not, Bool.not_true, Bool.or_eq_false_iff,
    Bool.and_eq_false_iff, decide_eq_false_iff_not]
  omega

theorem hyph_pNS : ∀ c, chIs '-' c = true → pNS c = true := by
  intro c h
  simp only [chIs, decide_eq_true_eq] at h
  subst h
  decide

theorem alnumHyph_pNS :
    ∀ c, (chAlpha c || chDigit c || chIs '-' c) = true → pNS c = true := by
  intro c h
  simp only [Bool.or_eq_true] at h
  rcases h with (h | h) | h
  · exact alpha_pNS c h
  · exact digit_pNS c h
  · exact hyph_pNS c h

theorem invSep_noGrp : invSepRE.noGrp = true := by decide

theorem invCodeT_capOK : (RE.grp (invCodeRE true)).capOK 6 pNS := by
  refine ⟨by decide, ?_⟩
  simp only [invCodeRE, RE.repRange, RE.rep, RE.upTo, RE.repMin, RE.charsSat, if_true]
  repeat' apply And.intro
  all_goals first
    | exact trivial
    | exact alpha_pNS
    | exact digit_pNS
    | exact hyph_pNS

theorem invToken_capOK : (RE.grp invTokenRE).capOK 6 pNS := by
  refine ⟨by decide, ?_⟩
  simp only [invTokenRE, RE.repMin, RE.rep, RE.charsSat]
  repeat' apply And.intro
  all_goals first
    | exact trivial
    | exact alnumHyph_pNS

theorem invoicePatterns_capOK : ∀ re ∈ invoicePatterns, re.capOK 6 pNS := by
  intro re h
  simp only [invoicePatterns, List.mem_cons, List.not_mem_nil, or_false] at h
  have hsep : invSepRE.capOK 6 pNS := capOK_of_noGrp _ invSep_noGrp
  have hlit : ∀ l : List Char, (RE.litCI l).capOK 6 pNS :=
    fun l => capOK_of_noGrp _ (noGrp_litCI l)
  rcases h with rfl | rfl | rfl | rfl | rfl
  · exact ⟨hlit _, hsep, invCodeT_capOK⟩
  · exact ⟨hlit _, hsep, invCodeT_capOK⟩
  · exact ⟨hlit _, capOK_of_noGrp _ (by decide), ⟨⟨hlit _, hlit _, hlit _⟩,
      capOK_of_noGrp _ (by decide), capOK_of_noGrp _ (by decide),
      capOK_of_noGrp _ (by decide), invToken_capOK⟩⟩
  · exact ⟨hlit _, hsep, invToken_capOK⟩
  · exact ⟨hlit _, hsep, invToken_capOK⟩

/-- Stripping a whitespace-free string changes nothing. -/
theorem trimL_of_noSpace (l : List Char) (h : ∀ c ∈ l, chSpace c = false) :
    trimL l = l := by
  unfold trimL
  have h1 : l.dropWhile chSpace = l := by
    cases l with
    | nil => rfl
    | cons c t => rw [List.dropWhile_cons, h c (by simp), if_neg (by simp)]
  rw [h1]
  have h2 : l.reverse.dropWhile chSpace = l.reverse := by
    cases hr : l.reverse with
    | nil => rfl
    | cons c t =>
      have hc : c ∈ l := by
        rw [← List.mem_reverse, hr]; simp
      rw [List.dropWhile_cons, h c hc, if_neg (by simp)]
  rw [h2, List.reverse_reverse]

/-- Every candidate of the contextual phase is at least 6 characters of
non-whitespace. -/
theorem ctxCands_spec (text : List Char) :
    ∀ c ∈ ctxCands invoicePatterns text,
      6 ≤ c.length ∧ ∀ ch ∈ c, chSpace ch = false := by
  intro c hc
  simp only [ctxCands, List.mem_flatMap, List.mem_filterMap] at hc
  obtain ⟨re, hre, x, hx, hx2⟩ := hc
  have := finditerAux_caps (P := fun cap => 6 ≤ cap.length ∧ ∀ ch ∈ cap, pNS ch = true)
    (reMatcher_caps (invoicePatterns_capOK re hre)) (text.length + 1) none text x hx c hx2
  refine ⟨this.1, fun ch hch => ?_⟩
  have := this.2 ch hch
  simpa [pNS] using this

/-! ### Accumulation-loop invariants -/

theorem addCtx_nodup : ∀ cands acc, acc.Nodup → (addCtx cands acc).Nodup := by
  intro cands
  induction cands with
  | nil => intro acc h; exact h
  | cons c rest ih =>
    intro acc h
    simp only [addCtx]
    by_cases hg : trimL c ≠ [] ∧ trimL c ∉ acc
    · rw [if_pos hg]
      refine ih _ (List.nodup_append.mpr ⟨h, by simp, ?_⟩)
      intro a ha hb
      simp only [List.mem_singleton] at hb
      subst hb
      exact hg.2 ha
    · rw [if_neg hg]; exact ih _ h

theorem addCtx_min (k : Nat) : ∀ cands acc,
    (∀ c ∈ cands, k ≤ (trimL c).length) → (∀ t ∈ acc, k ≤ t.length) →
    ∀ t ∈ addCtx cands acc, k ≤ t.length := by
  intro cands
  induction cands with
  | nil => intro acc _ hacc t ht; exact hacc t ht
  | cons c rest ih =>
    intro acc hcands hacc t ht
    simp only [addCtx] at ht
    by_cases hg : trimL c ≠ [] ∧ trimL c ∉ acc
    · rw [if_pos hg] at ht
      refine ih _ (fun c' hc' => hcands c' (by simp [hc'])) ?_ t ht
      intro t' ht'
      rcases List.mem_append.mp ht' with h | h
      · exact hacc t' h
      · rcases List.mem_singleton.mp h with rfl
        exact hcands c (by simp)
    · rw [if_neg hg] at ht
      exact ih _ (fun c' hc' => hcands c' (by simp [hc'])) hacc t ht

theorem addStandalone_nodup : ∀ cands acc, acc.Nodup →
    (addStandalone cands acc).Nodup := by
  intro cands
  induction cands with
  | nil => intro acc h; exact h
  | cons c rest ih =>
    intro acc h
    simp only [addStandalone]
    by_cases hg : trimL c ≠ [] ∧ trimL c ∉ acc ∧ 6 ≤ (trimL c).length
    · rw [if_pos hg]
      refine ih _ (List.nodup_append.mpr ⟨h, by simp, ?_⟩)
      intro a ha hb
      simp only [List.mem_singleton] at hb
      subst hb
      exact hg.2.1 ha
    · rw [if_neg hg]; exact ih _ h

theorem addStandalone_decomp : ∀ cands acc, ∃ extra,
    addStandalone cands acc = acc ++ extra ∧ ∀ t ∈ extra, 6 ≤ t.length := by
  intro cands
  induction cands with
  | nil => intro acc; exact ⟨[], by simp [addStandalone]⟩
  | cons c rest ih =>
    intro acc
    simp only [addStandalone]
    by_cases hg : trimL c ≠ [] ∧ trimL c ∉ acc ∧ 6 ≤ (trimL c).length
    · rw [if_pos hg]
      obtain ⟨extra, he, hlen⟩ := ih (acc ++ [trimL c])
      refine ⟨trimL c :: extra, ?_, ?_⟩
      · rw [he, List.append_assoc]; rfl
      · intro t ht
        rcases List.mem_cons.mp ht with rfl | h
        · exact hg.2.2
        · exact hlen t h
    · rw [if_neg hg]; exact ih acc

theorem collectAmounts_nodup : ∀ cands acc, acc.Nodup →
    (collectAmounts cands acc).Nodup := by
  intro cands
  induction cands with
  | nil => intro acc h; exact h
  | cons c rest ih =>
    intro acc h
    cases hpf : parseFloat (cleanAmount c) with
    | none => simp only [collectAmounts, hpf]; exact ih acc h
    | some a =>
      simp only [collectAmounts, hpf]
      by_cases hg : mkRat 1 100 ≤ a ∧ a ≤ 1000000 ∧ a ∉ acc
      · rw [if_pos hg]
        refine ih _ (List.nodup_append.mpr ⟨h, by simp, ?_⟩)
        intro b hb hb'
        simp only [List.mem_singleton] at hb'
        subst hb'
        exact hg.2.2 hb
      · rw [if_neg hg]; exact ih acc h

theorem collectAmounts_range : ∀ cands acc,
    (∀ v ∈ acc, mkRat 1 100 ≤ v ∧ v ≤ 1000000) →
    ∀ v ∈ collectAmounts cands acc, mkRat 1 100 ≤ v ∧ v ≤ 1000000 := by
  intro cands
  induction cands with
  | nil => intro acc h v hv; exact h v hv
  | cons c rest ih =>
    intro acc h v hv
    cases hpf : parseFloat (cleanAmount c) with
    | none =>
      simp only [collectAmounts, hpf] at hv
      exact ih acc h v hv
    | some a =>
      simp only [collectAmounts, hpf] at hv
      by_cases hg : mkRat 1 100 ≤ a ∧ a ≤ 1000000 ∧ a ∉ acc
      · rw [if_pos hg] at hv
        refine ih _ ?_ v hv
        intro w hw
        rcases List.mem_append.mp hw with h' | h'
        · exact h w h'
        · rcases List.mem_singleton.mp h' with rfl
          exact ⟨hg.1, hg.2.1⟩
      · rw [if_neg hg] at hv; exact ih acc h v hv

theorem mkDate_valid {y m d : Nat} {dv : DateValue} (h : mkDate y m d = some dv) :
    dv.isValid = true := by
  unfold mkDate at h
  by_cases hv : (DateValue.mk y m d).isValid = true
  · rw [if_pos hv] at h
    rcases Option.some_inj.mp h with rfl
    exact hv
  · rw [if_neg hv] at h; cases h

theorem fmtMDY_valid {sep : Char} {s : List Char} {dv : DateValue}
    (h : fmtMDY sep s = some dv) : dv.isValid = true := by
  unfold fmtMDY at h
  simp only [Option.bind_eq_bind, Option.bind_eq_some] at h
  obtain ⟨_, _, _, _, _, _, _, _, _, _, h⟩ := h
  split at h
  · exact mkDate_valid h
  · cases h

theorem fmtYMD_valid {s : List Char} {dv : DateValue}
    (h : fmtYMD s = some dv) : dv.isValid = true := by
  unfold fmtYMD at h
  simp only [Option.bind_eq_bind, Option.bind_eq_some] at h
  obtain ⟨_, _, _, _, _, _, _, _, _, _, h⟩ := h
  split at h
  · exact mkDate_valid h
  · cases h

theorem orElseNone (f : Unit → Option α) : Option.orElse none f = f () := rfl

theorem orElseSome (a : α) (f : Unit → Option α) : Option.orElse (some a) f = some a := rfl

theorem fmtNamed_valid {pm : List Char → Option (Nat × List Char)} {comma : Bool}
    {s : List Char} {dv : DateValue} (h : fmtNamed pm comma s = some dv) :
    dv.isValid = true := by
  cases comma with
  | false =>
    unfold fmtNamed at h
    simp only [Option.bind_eq_bind, Option.bind_eq_some, Bool.false_eq_true, if_false,
      Option.pure_def, Option.some_bind] at h
    obtain ⟨_, _, _, _, _, _, _, _, _, _, h⟩ := h
    split at h
    · exact mkDate_valid h
    · cases h
  | true =>
    unfold fmtNamed at h
    simp only [Option.bind_eq_bind, Option.bind_eq_some, if_true] at h
    obtain ⟨_, _, _, _, _, _, _, _, _, _, _, _, h⟩ := h
    split at h
    · exact mkDate_valid h
    · cases h

theorem tryDateFormats_valid {s : List Char} {dv : DateValue}
    (h : tryDateFormats s = some dv) : dv.isValid = true := by
  unfold tryDateFormats at h
  rcases h1 : fmtMDY '/' s with _ | d1
  · rw [h1, orElseNone] at h
    rcases h2 : fmtMDY '-' s with _ | d2
    · rw [h2, orElseNone] at h
      rcases h3 : fmtYMD s with _ | d3
      · rw [h3, orElseNone] at h
        rcases h4 : fmtNamed parseBB true s with _ | d4
        · rw [h4, orElseNone] at h
          rcases h5 : fmtNamed parseBB false s with _ | d5
          · rw [h5, orElseNone] at h
            rcases h6 : fmtNamed parseBb true s with _ | d6
            · rw [h6, orElseNone] at h
              exact fmtNamed_valid h
            · rw [h6, orElseSome] at h
              rcases Option.some_inj.mp h with rfl
              exact fmtNamed_valid h6
          · rw [h5, orElseSome] at h
            rcases Option.some_inj.mp h with rfl
            exact fmtNamed_valid h5
        · rw [h4, orElseSome] at h
          rcases Option.some_inj.mp h with rfl
          exact fmtNamed_valid h4
      · rw [h3, orElseSome] at h
        rcases Option.some_inj.mp h with rfl
        exact fmtYMD_valid h3
    · rw [h2, orElseSome] at h
      rcases Option.some_inj.mp h with rfl
      exact fmtMDY_valid h2
  · rw [h1, orElseSome] at h
    rcases Option.some_inj.mp h with rfl
    exact fmtMDY_valid h1

theorem collectDates_nodup : ∀ cands acc, acc.Nodup →
    (collectDates cands acc).Nodup := by
  intro cands
  induction cands with
  | nil => intro acc h; exact h
  | cons c rest ih =>
    intro acc h
    cases hf : tryDateFormats c with
    | none => simp only [collectDates, hf]; exact ih acc h
    | some d =>
      simp only [collectDates, hf]
      by_cases hg : d ∉ acc
      · rw [if_pos hg]
        refine ih _ (List.nodup_append.mpr ⟨h, by simp, ?_⟩)
        intro b hb hb'
        simp only [List.mem_singleton] at hb'
        subst hb'
        exact hg hb
      · rw [if_neg hg]; exact ih acc h

theorem collectDates_valid : ∀ cands acc,
    (∀ d ∈ acc, d.isValid = true) →
    ∀ d ∈ collectDates cands acc, d.isValid = true := by
  intro cands
  induction cands with
  | nil => intro acc h d hd; exact h d hd
  | cons c rest ih =>
    intro acc h d hd
    cases hf : tryDateFormats c with
    | none =>
      simp only [collectDates, hf] at hd
      exact ih acc h d hd
    | some d' =>
      simp only [collectDates, hf] at hd
      by_cases hg : d' ∉ acc
      · rw [if_pos hg] at hd
        refine ih _ ?_ d hd
        intro e he
        rcases List.mem_append.mp he with h' | h'
        · exact h e h'
        · rcases List.mem_singleton.mp h' with rfl
          exact tryDateFormats_valid hf
      · rw [if_neg hg] at hd; exact ih acc h d hd

/-! ### Vendor names are always longer than 3 characters -/

theorem bodyTier_len : ∀ lines v, bodyTier lines = some v → 3 < v.length := by
  intro lines
  induction lines with
  | nil => intro v h; cases h
  | cons l rest ih =>
    intro v h
    simp only [bodyTier] at h
    by_cases h1 : trimL l = [] ∨ (trimL l).map upperCh ∈ headerTokens
    · rw [if_pos h1] at h; exact ih v h
    · rw [if_neg h1] at h
      by_cases h2 : companyIndicators.any (fun ind => hasSub ind (trimL l)) = true
      · rw [if_pos h2] at h
        by_cases h3 : 3 < (trimL (cleanPunct (trimL l))).length
        · rw [if_pos h3] at h
          rcases Option.some_inj.mp h with rfl
          exact h3
        · rw [if_neg h3] at h; exact ih v h
      · rw [if_neg h2] at h; exact ih v h

theorem guardLenA {v w : List Char}
    (h : (if 3 < v.length then some v else none) = some w) : 3 < w.length := by
  by_cases hc : 3 < v.length
  · rw [if_pos hc] at h
    rcases Option.some_inj.mp h with rfl
    exact hc
  · rw [if_neg hc] at h
    cases h

theorem guardLenB {v w : List Char}
    (h : (if v ≠ [] ∧ 3 < v.length then some v else none) = some w) : 3 < w.length := by
  by_cases hc : v ≠ [] ∧ 3 < v.length
  · rw [if_pos hc] at h
    rcases Option.some_inj.mp h with rfl
    exact hc.2
  · rw [if_neg hc] at h
    cases h

theorem subjectTier_len : ∀ subject v, subjectTier subject = some v → 3 < v.length := by
  intro subject v h
  simp only [subjectTier] at h
  by_cases h1 : hasSub ("from".data) (subject.map lowerCh) = true
  · rw [if_pos h1] at h
    rcases hsp : splitOnL ("from".data) (subject.map lowerCh) with _ | ⟨p0, ps⟩
    · rw [hsp] at h; cases h
    · rcases ps with _ | ⟨p1, rest⟩
      · rw [hsp] at h; cases h
      · rw [hsp] at h
        exact guardLenA h
  · rw [if_neg h1] at h; cases h

theorem senderTier_len : ∀ sender v, senderTier sender = some v → 3 < v.length := by
  intro sender v h
  simp only [senderTier] at h
  exact guardLenB h

/-- How many of the four field categories are present in a result. -/
def presentCount (r : ExtractionResult) : Nat :=
  (if r.vendorName.isSome then 1 else 0) + (if r.amounts ≠ [] then 1 else 0)
    + (if r.dates ≠ [] then 1 else 0) + (if r.invoiceNumbers ≠ [] then 1 else 0)

/-- Shared helper: every vendor name the resolver returns is longer than 3
characters. -/
theorem vendorName_len {text subject sender : List Char} {v : List Char}
    (h : extractVendorName text subject sender = some v) : 3 < v.length := by
  simp only [extractVendorName] at h
  match hb : bodyTier ((splitOnL (['\n']) text).take 5) with
  | some w =>
    rw [hb] at h
    rcases Option.some_inj.mp h with rfl
    exact bodyTier_len _ _ hb
  | none =>
    rw [hb] at h
    match hs : subjectTier subject with
    | some w =>
      rw [hs] at h
      rcases Option.some_inj.mp h with rfl
      exact subjectTier_len _ _ hs
    | none =>
      rw [hs] at h
      exact senderTier_len _ _ h

/-! ### The claims -/

/-- C1 (counterexample): on the unsupported content type `text/plain`,
`process_document` does not return a result carrying the input text with
empty field collections — it returns the empty dict `{}` (modelled `none`),
so no returned result has a `text` field at all. -/
theorem unsupported_counterexample :
    ¬ ∃ r, processDocument (("hello").data) (("text/plain").data) [] [] = some r ∧
        r.text = ("hello").data ∧ r.amounts = [] ∧ r.dates = [] ∧
        r.invoiceNumbers = [] ∧ r.vendorName = none := by
  rintro ⟨r, hr, -⟩
  have h : processDocument (("hello").data) (("text/plain").data) [] [] = none := by decide
  rw [h] at hr
  cases hr

/-- C1 (amended): for every document whose content type is neither of the
image family nor `application/pdf`, `process_document` returns the empty
dict `{}` (no fields at all, in particular empty collections and no vendor),
and raises no fault. -/
theorem unsupported_returns_empty (ocr ct su se : List Char)
    (h1 : leadsWith false (("image/").data) ct = false)
    (h2 : ct ≠ ("application/pdf").data) :
    processDocument ocr ct su se = none := by
  unfold processDocument
  rw [if_neg]
  intro hc
  rcases hc with hc | hc
  · rw [h1] at hc; cases hc
  · exact h2 hc

/-- C1 (witness). -/
theorem unsupported_returns_empty_witness :
    processDocument (("hello").data) (("text/plain").data) [] [] = none :=
  unsupported_returns_empty (("hello").data) (("text/plain").data) [] []
    (by decide) (by decide)

/-- C2: for every text, `extract_amounts` returns a strictly descending list
with no two equal values, every value lying in `[0.01, 1000000]`. -/
theorem amounts_sorted_nodup_range (text : List Char) :
    (extractAmounts text).Pairwise (fun a b => a > b) ∧ (extractAmounts text).Nodup ∧
      ∀ v ∈ extractAmounts text, 1 / 100 ≤ v ∧ v ≤ 1000000 := by
  have hnd : (collectAmounts (amountCands amountPatterns text) []).Nodup :=
    collectAmounts_nodup _ [] List.nodup_nil
  have hrg := collectAmounts_range (amountCands amountPatterns text) []
    (by intro v hv; cases hv)
  have hperm : (extractAmounts text).Perm (collectAmounts (amountCands amountPatterns text) []) :=
    List.perm_insertionSort _ _
  have hnd2 : (extractAmounts text).Nodup := hperm.nodup_iff.mpr hnd
  have hsorted : (extractAmounts text).Sorted (fun a b => a ≥ b) :=
    List.sorted_insertionSort _ _
  refine ⟨?_, hnd2, ?_⟩
  · exact (List.Pairwise.and hsorted hnd2).imp
      (fun h => lt_of_le_of_ne h.1 (Ne.symm h.2))
  · intro v hv
    have hm := hrg v (hperm.mem_iff.mp hv)
    have e : (mkRat 1 100 : ℚ) = 1 / 100 := by norm_num [mkRat, Rat.normalize]
    rw [e] at hm
    exact hm

/-- C2 (witness). -/
theorem amounts_sorted_nodup_range_witness :
    (extractAmounts (("Total: 500").data)).Pairwise (fun a b => a > b) ∧
      (1 / 100 ≤ (500 : ℚ) ∧ (500 : ℚ) ≤ 1000000) :=
  ⟨(amounts_sorted_nodup_range (("Total: 500").data)).1,
   (amounts_sorted_nodup_range (("Total: 500").data)).2.2 500 (by decide)⟩

/-- C3 (counterexample): on Scenario C's inputs the resolver does not return
the string `"Acme Corp"`. -/
theorem scenarioC_counterexample :
    extractVendorName [] (("Invoice INV-2024-0007 from Acme Corp <ap@acme.com>").data)
      (("Acme Corp <ap@acme.com>").data) ≠ some (("Acme Corp").data) := by
  decide

/-- C3 (amended): on Scenario C's inputs the body tier fails (empty text) and
the subject tier answers — but the code splits the lower-cased subject, so
the result is exactly `"acme corp"` (angle-bracket fragment stripped, in
lower case). -/
theorem scenarioC_amended :
    extractVendorName [] (("Invoice INV-2024-0007 from Acme Corp <ap@acme.com>").data)
      (("Acme Corp <ap@acme.com>").data) = some (("acme corp").data) := by
  decide

/-- C4: for every text, `extract_dates` holds no two elements resolving to
the same calendar date; in particular a text containing `"01/15/2024"` twice
yields exactly one element, resolving to January 15, 2024. -/
theorem dates_dedup_by_calendar_date :
    (∀ text : List Char, (extractDates text).Nodup) ∧
      extractDates (("01/15/2024 and 01/15/2024").data) = [⟨2024, 1, 15⟩] :=
  ⟨fun _ => collectDates_nodup _ [] List.nodup_nil, by decide⟩

/-- C5: for every text, `extract_invoice_numbers` never re-adds a token
already accepted (the whole list is duplicate-free, insertion order kept,
the contextual tokens a prefix), and every token the standalone fallback
phase appends has length at least 6. -/
theorem invoice_dedup_phases (text : List Char) :
    (extractInvoiceNumbers text).Nodup ∧
      ∃ extra, extractInvoiceNumbers text = ctxPhase text ++ extra ∧
        ∀ t ∈ extra, 6 ≤ t.length :=
  ⟨addStandalone_nodup _ _ (addCtx_nodup _ [] List.nodup_nil),
   addStandalone_decomp _ _⟩

/-- C5 (witness). -/
theorem invoice_dedup_phases_witness :
    (extractInvoiceNumbers (("Invoice INV-2024-0007 and INV-2024-0007").data)).Nodup ∧
      ∃ extra, extractInvoiceNumbers (("Invoice INV-2024-0007 and INV-2024-0007").data)
          = ctxPhase (("Invoice INV-2024-0007 and INV-2024-0007").data) ++ extra ∧
        ∀ t ∈ extra, 6 ≤ t.length :=
  invoice_dedup_phases (("Invoice INV-2024-0007 and INV-2024-0007").data)

/-- C6: the confidence score of every extraction result the pipeline
produces equals the number of present field categories divided by 4, hence
lies in `{0, 1/4, 1/2, 3/4, 1}` and depends only on presence. -/
theorem confidence_presence (ocr ct su se : List Char) (r : ExtractionResult)
    (h : processDocument ocr ct su se = some r) :
    calcConfidence r = (presentCount r : ℚ) / 4 ∧
      (calcConfidence r = 0 ∨ calcConfidence r = 1 / 4 ∨ calcConfidence r = 1 / 2 ∨
        calcConfidence r = 3 / 4 ∨ calcConfidence r = 1) := by
  have hv : vendorTruthy r.vendorName = r.vendorName.isSome := by
    unfold processDocument at h
    split at h
    · split at h
      · cases h
      · rcases Option.some_inj.mp h with rfl
        simp only
        cases he : extractVendorName ocr su se with
        | none => rfl
        | some v =>
          have := vendorName_len he
          simp only [vendorTruthy, Option.isSome_some, decide_eq_true_eq]
          intro hv
          rw [hv] at this
          simp at this
    · cases h
  constructor
  · unfold calcConfidence presentCount
    rw [hv]
    push_cast
    split_ifs <;> norm_num
  · unfold calcConfidence
    split_ifs <;> norm_num

/-- The result `process_document` produces from the text `"hello"` under the
content type `image/png` with empty metadata. -/
def helloResult : ExtractionResult :=
  { text := ("hello").data
    amounts := []
    dates := []
    invoiceNumbers := []
    vendorName := none
    contentType := ("image/png").data }

/-- C6 (witness). -/
theorem confidence_presence_witness :
    calcConfidence helloResult = (presentCount helloResult : ℚ) / 4 :=
  (confidence_presence (("hello").data) (("image/png").data) [] [] helloResult
    (by decide)).1

/-- C7 (counterexample): a subject-tier vendor name can carry characters
outside word characters, whitespace, `&`, `.`, `,` — the code never cleans
that tier. -/
theorem vendor_charset_counterexample :
    extractVendorName [] (("invoice from ab!cd").data) [] = some (("ab!cd").data) ∧
      '!' ∈ (("ab!cd").data) ∧
      (chWord '!' || chSpace '!' || chIs '&' '!' || chIs '.' '!' || chIs ',' '!') = false :=
  ⟨by decide, by decide, by decide⟩

/-- C7 (amended): every vendor name the resolver returns has length strictly
greater than 3, and the result is absent when no tier yields such a
candidate; the punctuation restriction, however, only holds for the body and
sender tiers, not for subject-tier results. -/
theorem vendor_name_length (text subject sender v : List Char)
    (h : extractVendorName text subject sender = some v) : 3 < v.length :=
  vendorName_len h

/-- C7 (witness). -/
theorem vendor_name_length_witness : 3 < (("x LLC").data).length :=
  vendor_name_length (("x LLC\nrest").data) [] [] (("x LLC").data) (by decide)

/-- C8: a candidate that matches a date pattern but fails every calendar
format (here month 13) contributes nothing and raises nothing — the pattern
does match `"13/13/2024"` yet the result is empty — and every date the
extractor ever returns passed the calendar validation. -/
theorem parse_skip :
    (dateCands datePatterns (("13/13/2024").data) = [("13/13/2024").data] ∧
      extractDates (("13/13/2024").data) = []) ∧
      ∀ text : List Char, ∀ d ∈ extractDates text, d.isValid = true :=
  ⟨⟨by decide, by decide⟩,
   fun _ d hd => collectDates_valid _ [] (by intro e he; cases he) d hd⟩

/-- C8 (witness). -/
theorem parse_skip_witness : DateValue.isValid ⟨2024, 1, 15⟩ = true :=
  parse_skip.2 (("01/15/2024").data) ⟨2024, 1, 15⟩ (by decide)

/-- C9: extraction is deterministic and stateless — a call leaves the
instance state exactly as `__init__` built it, so after any history of prior
invocations the result on a given input is the same as on a fresh instance,
and repeating the invocation repeats the result. -/
theorem extraction_stateless (hist : List DocInput) (i : DocInput) :
    processDocumentSt (runHistory initState hist) i
      = (initState, processDocumentWith initState i) := by
  have hfix : ∀ st : ProcState, ∀ h : List DocInput, runHistory st h = st := by
    intro st h
    induction h with
    | nil => rfl
    | cons a t ih => exact ih
  rw [hfix]
  rfl

/-- C10: every token `extract_invoice_numbers` returns has length at least
6 — the contextual capture groups themselves require at least 6 characters,
and the fallback phase checks the length explicitly. -/
theorem invoice_tokens_min_length (text : List Char) :
    ∀ t ∈ extractInvoiceNumbers text, 6 ≤ t.length := by
  have hctx : ∀ t ∈ ctxPhase text, 6 ≤ t.length := by
    apply addCtx_min 6 (ctxCands invoicePatterns text) []
    · intro c hc
      obtain ⟨hlen, hns⟩ := ctxCands_spec text c hc
      rw [trimL_of_noSpace c hns]
      exact hlen
    · intro t ht; cases ht
  intro t ht
  obtain ⟨extra, he, hex⟩ :=
    addStandalone_decomp (standaloneCands standalonePatterns text) (ctxPhase text)
  have ht' : t ∈ ctxPhase text ++ extra := by
    rw [show extractInvoiceNumbers text = ctxPhase text ++ extra from he] at ht
    exact ht
  rcases List.mem_append.mp ht' with h | h
  · exact hctx t h
  · exact hex t h

/-- C10 (witness). -/
theorem invoice_tokens_min_length_witness : 6 ≤ (("INV-2024-0007").data).length :=
  invoice_tokens_min_length (("Invoice INV-2024-0007").data) (("INV-2024-0007").data)
    (by decide)

end Acct
